import Mathlib

/-!
Shallow embedding of the coin-indexor event ingestion engine
(internal/indexer, internal/models of the Go source) together with proofs
about its range computation, chunking, decoding, persistence and
checkpointing behaviour.

Machine integers (uint64 block numbers, bytes) are modelled as Nat; all
block arithmetic in the source stays far below 2^64 in every scenario
considered and the source loop never relies on wraparound, so no explicit
modular reduction is inserted. Fallible operations return Except.
External collaborators (chain node, relational store) are modelled as an
explicit environment; where their behaviour is not in the repository it is
modelled from the spec and marked as such in the doc comment.
-/

namespace CoinIndexer

/-- A byte string (each entry intended < 256), as used for go-ethereum
hashes, topics and log data. -/
abbrev Bytes := List Nat

/-- common.BytesToAddress, via Address.SetBytes: keep the last 20 bytes of
the input, left-padding with zero bytes when the input is shorter. -/
def bytesToAddress (bs : Bytes) : Bytes :=
  if 20 ≤ bs.length then bs.drop (bs.length - 20)
  else List.replicate (20 - bs.length) 0 ++ bs

/-- big.Int.SetBytes: interpret a byte string as a big-endian unsigned
integer (fold, most significant byte first). -/
def beNat (bs : Bytes) : Nat := bs.foldl (fun acc b => acc * 256 + b) 0

/-- Little-endian value of a byte string (least significant byte first).
Used only to state the big-endian property of beNat independently of the
fold the code performs. -/
def leNat : Bytes → Nat
  | [] => 0
  | b :: bs => b + 256 * leNat bs

/-- The byte of the ERC-20 Transfer event signature hash
ddf252ad1be2c89b69c2b068fc378daa952ba7f163c4a11628f55a4df523b3ef, the sole
topic value placed in the log filter query by processBlockRange. -/
def transferSig : Bytes :=
  [221, 242, 82, 173, 27, 226, 200, 155,
   105, 194, 176, 104, 252, 55, 141, 170,
   149, 43, 167, 241, 99, 196, 161, 22,
   40, 245, 90, 77, 245, 35, 179, 239]

/-- A raw log entry (types.Log): the fields read by the indexer. -/
structure Log where
  address : String
  topics : List Bytes
  data : Bytes
  txHash : String
  blockNumber : Nat
  index : Nat
deriving DecidableEq

/-- ContractConfig from the indexer package. The common.Address value is
modelled by its hex rendering, which is what every use site
(config.Address.Hex and the filter query) consumes. -/
structure ContractConfig where
  name : String
  addressHex : String
  startBlock : Nat
deriving DecidableEq

/-- models.Transaction, the persisted transfer record. The gorm-managed
surrogate id, the optional USD price fields and the created/updated
timestamps are never read by the ingestion engine and are omitted.
Sender and recipient are kept as 20-byte values; the Go code stores their
(injective) hex rendering. -/
structure Transaction where
  txHash : String
  blockNumber : Nat
  logIndex : Nat
  contractAddress : String
  tokenName : String
  fromAddress : Bytes
  toAddress : Bytes
  amount : String
  blockTimestamp : Nat
deriving DecidableEq

/-- ethereum.FilterQuery as built by processBlockRange: block range,
allowed contract addresses, and per-position allowed topic values. -/
structure FilterQuery where
  fromBlock : Nat
  toBlock : Nat
  addresses : List String
  topics : List (List Bytes)
deriving DecidableEq

/-- The query built at models.go lines 205-212: the contract address and
the Transfer signature as the only allowed first topic. -/
def transferQuery (cfg : ContractConfig) (a b : Nat) : FilterQuery :=
  { fromBlock := a
    toBlock := b
    addresses := [cfg.addressHex]
    topics := [[transferSig]] }

/-- Modelled from the spec: the Chain Reader answers a filter query with
logs matching it. topicsMatch checks the positional topic patterns of an
ethereum filter query: pattern position i constrains topic i, an empty
pattern list is a wildcard, and a log with fewer topics than constrained
positions does not match. -/
def topicsMatch : List (List Bytes) → List Bytes → Bool
  | [], _ => true
  | _ :: _, [] => false
  | pat :: ps, tp :: ts => (pat.isEmpty || pat.contains tp) && topicsMatch ps ts

/-- Modelled from the spec: a log matches a filter query when its block
number lies in the query range, its emitting address is among the allowed
addresses and its topics match the positional patterns. -/
def logMatches (q : FilterQuery) (l : Log) : Bool :=
  decide (q.fromBlock ≤ l.blockNumber) && decide (l.blockNumber ≤ q.toBlock) &&
    q.addresses.contains l.address && topicsMatch q.topics l.topics

/-- The external world seen by one Contract Monitor: the chain node
(current height, log filter, block-by-number for timestamps) and a fault
injector for the record store insert (a transient store failure makes the
insert of that record return an error). -/
structure Env where
  blockNumber : Except String Nat
  filterLogs : FilterQuery → Except String (List Log)
  blockByNumber : Nat → Except String Nat
  insertFails : Transaction → Bool

/-- Modelled from the spec: an honest Chain Reader only ever returns logs
that match the submitted filter query. -/
def HonestReader (env : Env) : Prop :=
  ∀ q logs, env.filterLogs q = Except.ok logs → ∀ l ∈ logs, logMatches q l = true

/-- Modelled from the spec: the Event Store insert (db.Create on a table
whose tx_hash column carries a unique index). A transient store failure or
a duplicate uniqueness key yields an error and leaves the store unchanged;
a successful insert appends the record. An existing record is never
overwritten. -/
def dbCreate (env : Env) (db : List Transaction) (tx : Transaction) :
    Except String (List Transaction) :=
  if env.insertFails tx then Except.error "failed to save transaction"
  else if db.any (fun t => t.txHash == tx.txHash) then
    Except.error "UNIQUE constraint failed on tx_hash"
  else Except.ok (db ++ [tx])

/-- The transfer record built by processTransferEvent (models.go lines
248-258) from a log that passed the shape guard, given the containing
block timestamp. -/
def mkTransferTx (cfg : ContractConfig) (l : Log) (blockTime : Nat) : Transaction :=
  { txHash := l.txHash
    blockNumber := l.blockNumber
    logIndex := l.index
    contractAddress := cfg.addressHex
    tokenName := cfg.name
    fromAddress := bytesToAddress (l.topics.getD 1 [])
    toAddress := bytesToAddress (l.topics.getD 2 [])
    amount := Nat.repr (beNat (l.data.take 32))
    blockTimestamp := blockTime }

/-- processTransferEvent: guard the log shape (at least 3 topics and 32
data bytes), resolve the containing block timestamp, build the record and
insert it. Any failure is returned as an error to the caller. -/
def processTransferEvent (env : Env) (cfg : ContractConfig)
    (db : List Transaction) (l : Log) : Except String (List Transaction) :=
  if l.topics.length < 3 ∨ l.data.length < 32 then
    Except.error "invalid transfer event data"
  else
    match env.blockByNumber l.blockNumber with
    | Except.error e => Except.error ("failed to get block: " ++ e)
    | Except.ok ts => dbCreate env db (mkTransferTx cfg l ts)

/-- The per-chunk log loop of processBlockRange (models.go lines 219-224):
a failing processTransferEvent call is logged and skipped with continue,
processing of the remaining logs goes on with the store unchanged by the
failed record. -/
def processLogs (env : Env) (cfg : ContractConfig) :
    List Transaction → List Log → List Transaction
  | db, [] => db
  | db, l :: rest =>
    match processTransferEvent env cfg db l with
    | Except.error _ => processLogs env cfg db rest
    | Except.ok db2 => processLogs env cfg db2 rest

/-- processBlockRange: build the transfer filter query for the chunk,
fetch the logs (a fetch failure is returned as an error), then run the
per-log loop; the function itself returns no error once the fetch
succeeded. -/
def processBlockRange (env : Env) (cfg : ContractConfig)
    (db : List Transaction) (a b : Nat) : Except String (List Transaction) :=
  match env.filterLogs (transferQuery cfg a b) with
  | Except.error e => Except.error ("failed to filter logs: " ++ e)
  | Except.ok logs => Except.ok (processLogs env cfg db logs)

/-- getLastProcessedBlock: read the BlockProgress row for the address;
any lookup failure (no checkpoint stored yet) yields 0. -/
def getLastProcessedBlock (progress : List (String × Nat)) (addr : String) : Nat :=
  match progress.lookup addr with
  | some n => n
  | none => 0

/-- updateLastProcessedBlock. Modelled from the spec: the Progress Store
set operation is an upsert with last-write-wins for the single owning
monitor; we model it by prepending the new entry, so the lookup (which
takes the first match) sees the latest write while the full write history
stays in the list. -/
def updateLastProcessedBlock (progress : List (String × Nat))
    (addr : String) (n : Nat) : List (String × Nat) :=
  (addr, n) :: progress

/-- One chunk per iteration of the batching loop of processContractEvents
(models.go lines 185-197): while fromBlock ≤ currentBlock the chunk
endpoint is fromBlock + batchSize - 1 capped at currentBlock, and the next
iteration starts at fromBlock + batchSize. The fuel argument counts loop
iterations; the loop itself has no iteration bound, and with batchSize = 0
it never advances (see the termination theorem). -/
def chunksFuel : Nat → Nat → Nat → Nat → List (Nat × Nat)
  | 0, _, _, _ => []
  | Nat.succ fuel, f, t, m =>
    if f ≤ t then (f, min (f + m - 1) t) :: chunksFuel fuel (f + m) t m
    else []

/-- The chunk sequence of the batching loop over [f, t] with maximum chunk
width m, supplied with fuel t + 1 - f, which is exact: with m ≥ 1 every
iteration consumes at least one block of the remaining width, so the loop
exits by its own condition before the fuel runs out. -/
def chunks (f t m : Nat) : List (Nat × Nat) := chunksFuel (t + 1 - f) f t m

/-- Ceiling division: the number of chunks of width m covering w blocks. -/
def ceilDiv (w m : Nat) : Nat := (w + m - 1) / m

/-- The database state threaded through one tick: the transfer record
store and the progress store. -/
structure TickState where
  db : List Transaction
  progress : List (String × Nat)
deriving DecidableEq

/-- The body of the batching loop (models.go lines 185-197) over a
precomputed chunk list: each chunk is fetched and processed; on failure
the loop stops and the error is returned with the state reached so far
(earlier chunk writes and checkpoint advances are already durable); on
success the checkpoint is advanced to the chunk endpoint and the loop
continues. -/
def runChunks (env : Env) (cfg : ContractConfig) :
    TickState → List (Nat × Nat) → TickState × Option String
  | s, [] => (s, none)
  | s, c :: rest =>
    match processBlockRange env cfg s.db c.1 c.2 with
    | Except.error e => (s, some ("failed to process blocks: " ++ e))
    | Except.ok db2 =>
      runChunks env cfg
        { db := db2
          progress := updateLastProcessedBlock s.progress cfg.addressHex c.2 } rest

/-- processContractEvents, one poll tick (models.go lines 164-200): read
the checkpoint, floor it at the configured start block, read the chain
height, skip the tick when no new blocks exist, otherwise run the batching
loop from lastBlock + 1 to the chain height. -/
def processContractEvents (env : Env) (cfg : ContractConfig)
    (batchSize : Nat) (s : TickState) : TickState × Option String :=
  let lastBlock := max (getLastProcessedBlock s.progress cfg.addressHex) cfg.startBlock
  match env.blockNumber with
  | Except.error e => (s, some ("failed to get current block number: " ++ e))
  | Except.ok currentBlock =>
    if currentBlock ≤ lastBlock then (s, none)
    else runChunks env cfg s (chunks (lastBlock + 1) currentBlock batchSize)

/-- The events observed by the monitor loop of monitorContract: the stop
signal and the poll ticker. -/
inductive MonitorEvent
  | stop
  | tick
deriving DecidableEq

/-- One iteration of the monitor loop (models.go lines 150-161): a stop
signal exits the loop (none); a tick runs processContractEvents, logs and
discards any error, and keeps the loop running with the new state. -/
def monitorStep (env : Env) (cfg : ContractConfig) (batchSize : Nat)
    (s : TickState) : MonitorEvent → Option TickState
  | MonitorEvent.stop => none
  | MonitorEvent.tick => some (processContractEvents env cfg batchSize s).1

/-- The chunk with index i of the loop over [f, t] with width m. -/
def chunkAt (f t m i : Nat) : Nat × Nat := (f + i * m, min (f + i * m + m - 1) t)

theorem ceilDiv_zero_w (m : Nat) : ceilDiv 0 m = 0 := by
  unfold ceilDiv
  rcases Nat.eq_zero_or_pos m with h | h
  · subst h; rfl
  · exact Nat.div_eq_of_lt (by omega)

theorem ceilDiv_eq_div_succ (w m : Nat) (hw : 1 ≤ w) (hm : 1 ≤ m) :
    ceilDiv w m = (w - 1) / m + 1 := by
  unfold ceilDiv
  have h1 : w + m - 1 = (w - 1) + m := by omega
  rw [h1, Nat.add_div_right _ (by omega)]

theorem ceilDiv_succ (w m : Nat) (hw : 1 ≤ w) (hm : 1 ≤ m) :
    ceilDiv w m = ceilDiv (w - m) m + 1 := by
  rcases le_or_lt w m with h | h
  · have h1 : w - m = 0 := by omega
    rw [h1, ceilDiv_zero_w, ceilDiv_eq_div_succ w m hw hm]
    have h2 : (w - 1) / m = 0 := Nat.div_eq_of_lt (by omega)
    omega
  · rw [ceilDiv_eq_div_succ w m hw hm, ceilDiv_eq_div_succ (w - m) m (by omega) hm]
    have h3 : w - 1 = (w - m - 1) + m := by omega
    rw [h3, Nat.add_div_right _ (by omega)]

theorem ceilDiv_pos (w m : Nat) (hw : 1 ≤ w) (hm : 1 ≤ m) : 1 ≤ ceilDiv w m := by
  rw [ceilDiv_eq_div_succ w m hw hm]
  exact Nat.le_add_left 1 _

theorem le_mul_ceilDiv (w m : Nat) (hm : 1 ≤ m) : w ≤ m * ceilDiv w m := by
  unfold ceilDiv
  have h1 := Nat.div_add_mod (w + m - 1) m
  have h2 : (w + m - 1) % m < m := Nat.mod_lt _ (by omega)
  omega

theorem mul_le_of_lt_ceilDiv (w m i : Nat) (hw : 1 ≤ w) (hm : 1 ≤ m)
    (hi : i < ceilDiv w m) : i * m ≤ w - 1 := by
  rw [ceilDiv_eq_div_succ w m hw hm] at hi
  have h1 : i ≤ (w - 1) / m := by omega
  calc i * m ≤ (w - 1) / m * m := Nat.mul_le_mul_right m h1
    _ ≤ w - 1 := Nat.div_mul_le_self _ _

/-- Closed form of the batching loop: with width m ≥ 1 and enough fuel the
chunk list is the image of chunkAt over the first ceil((t+1-f)/m)
indices. -/
theorem chunksFuel_closed (m : Nat) (hm : 1 ≤ m) :
    ∀ fuel f t, t + 1 - f ≤ fuel →
      chunksFuel fuel f t m =
        (List.range (ceilDiv (t + 1 - f) m)).map (chunkAt f t m) := by
  intro fuel
  induction fuel with
  | zero =>
    intro f t h
    have h0 : t + 1 - f = 0 := by omega
    rw [h0, ceilDiv_zero_w]
    rfl
  | succ n ih =>
    intro f t h
    by_cases hft : f ≤ t
    · have hw : 1 ≤ t + 1 - f := by omega
      have hrec : t + 1 - (f + m) ≤ n := by omega
      have hstep : ceilDiv (t + 1 - f) m = ceilDiv (t + 1 - (f + m)) m + 1 := by
        have h1 : t + 1 - (f + m) = (t + 1 - f) - m := by omega
        rw [h1]
        exact ceilDiv_succ _ m hw hm
      rw [chunksFuel, if_pos hft, ih (f + m) t hrec, hstep,
        List.range_succ_eq_map, List.map_cons, List.map_map]
      have hhead : chunkAt f t m 0 = (f, min (f + m - 1) t) := by
        unfold chunkAt
        norm_num
      have htail :
          (List.range (ceilDiv (t + 1 - (f + m)) m)).map (chunkAt f t m ∘ Nat.succ)
            = (List.range (ceilDiv (t + 1 - (f + m)) m)).map (chunkAt (f + m) t m) := by
        apply List.map_congr_left
        intro i _
        show chunkAt f t m (i + 1) = chunkAt (f + m) t m i
        unfold chunkAt
        have h2 : f + (i + 1) * m = f + m + i * m := by
          rw [Nat.succ_mul]
          omega
        rw [h2]
      rw [hhead, htail]
    · have h0 : t + 1 - f = 0 := by omega
      rw [chunksFuel, if_neg hft, h0, ceilDiv_zero_w]
      rfl

theorem chunks_closed (f t m : Nat) (hm : 1 ≤ m) :
    chunks f t m = (List.range (ceilDiv (t + 1 - f) m)).map (chunkAt f t m) :=
  chunksFuel_closed m hm _ f t le_rfl

theorem chunks_length (f t m : Nat) (hm : 1 ≤ m) :
    (chunks f t m).length = ceilDiv (t + 1 - f) m := by
  rw [chunks_closed f t m hm]
  simp

theorem chunks_mem_iff (f t m : Nat) (hm : 1 ≤ m) (c : Nat × Nat) :
    c ∈ chunks f t m ↔ ∃ i, i < ceilDiv (t + 1 - f) m ∧ c = chunkAt f t m i := by
  rw [chunks_closed f t m hm]
  simp only [List.mem_map, List.mem_range]
  constructor
  · rintro ⟨i, hi, h⟩
    exact ⟨i, hi, h.symm⟩
  · rintro ⟨i, hi, h⟩
    exact ⟨i, hi, h.symm⟩

theorem chunkAt_fst_le_t (f t m i : Nat) (hft : f ≤ t) (hm : 1 ≤ m)
    (hi : i < ceilDiv (t + 1 - f) m) : f + i * m ≤ t := by
  have hw : 1 ≤ t + 1 - f := by omega
  have h1 := mul_le_of_lt_ceilDiv (t + 1 - f) m i hw hm hi
  omega

theorem chunks_elem_facts (f t m : Nat) (hft : f ≤ t) (hm : 1 ≤ m)
    (c : Nat × Nat) (hc : c ∈ chunks f t m) :
    f ≤ c.1 ∧ c.1 ≤ c.2 ∧ c.2 ≤ t ∧ c.2 + 1 - c.1 ≤ m ∧
      c.2 = min (c.1 + m - 1) t := by
  rcases (chunks_mem_iff f t m hm c).mp hc with ⟨i, hi, rfl⟩
  have h1 := chunkAt_fst_le_t f t m i hft hm hi
  have hfst : (chunkAt f t m i).1 = f + i * m := rfl
  have hsnd : (chunkAt f t m i).2 = min (f + i * m + m - 1) t := rfl
  rw [hfst, hsnd]
  have h2 : min (f + i * m + m - 1) t ≤ f + i * m + m - 1 := Nat.min_le_left _ _
  have h3 : min (f + i * m + m - 1) t ≤ t := Nat.min_le_right _ _
  have h4 : f + i * m ≤ min (f + i * m + m - 1) t := by
    apply le_min
    · omega
    · exact h1
  refine ⟨by omega, h4, h3, by omega, rfl⟩

theorem chunks_get (f t m : Nat) (hm : 1 ≤ m) (i : Nat)
    (hi : i < (chunks f t m).length) :
    (chunks f t m).get ⟨i, hi⟩ = chunkAt f t m i := by
  have h := chunks_closed f t m hm
  rw [List.get_of_eq h]
  simp

theorem chunks_chain (f t m : Nat) (hft : f ≤ t) (hm : 1 ≤ m) :
    List.Chain' (fun c d => c.2 + 1 = d.1) (chunks f t m) := by
  rw [List.chain'_iff_get]
  intro i hi
  have hlen := chunks_length f t m hm
  have hi1 : i < (chunks f t m).length := by omega
  have hi2 : i + 1 < (chunks f t m).length := by omega
  rw [chunks_get f t m hm i hi1, chunks_get f t m hm (i + 1) hi2]
  unfold chunkAt
  simp only
  have hnext : f + (i + 1) * m ≤ t :=
    chunkAt_fst_le_t f t m (i + 1) hft hm (by omega)
  have hmul : (i + 1) * m = i * m + m := by rw [Nat.succ_mul]
  have hmin : min (f + i * m + m - 1) t = f + i * m + m - 1 := by
    apply Nat.min_eq_left
    omega
  rw [hmin]
  omega

theorem chunks_snd_lt_fst (f t m : Nat) (_hft : f ≤ t) (hm : 1 ≤ m)
    (i j : Nat) (hij : i < j) (_hj : j < ceilDiv (t + 1 - f) m) :
    (chunkAt f t m i).2 < (chunkAt f t m j).1 := by
  unfold chunkAt
  simp only
  have h1 : min (f + i * m + m - 1) t ≤ f + i * m + m - 1 := Nat.min_le_left _ _
  have h2 : (i + 1) * m ≤ j * m := Nat.mul_le_mul_right m (by omega)
  have h3 : (i + 1) * m = i * m + m := by rw [Nat.succ_mul]
  omega

theorem chunks_pairwise (f t m : Nat) (hft : f ≤ t) (hm : 1 ≤ m) :
    List.Pairwise (fun c d => c.2 < d.1) (chunks f t m) := by
  rw [List.pairwise_iff_get]
  intro i j hij
  rw [chunks_get f t m hm i.1 i.2, chunks_get f t m hm j.1 j.2]
  have hlen := chunks_length f t m hm
  exact chunks_snd_lt_fst f t m hft hm i.1 j.1 hij (by omega)

theorem chunks_cover (f t m : Nat) (hft : f ≤ t) (hm : 1 ≤ m)
    (x : Nat) (hfx : f ≤ x) (hxt : x ≤ t) :
    ∃ c ∈ chunks f t m, c.1 ≤ x ∧ x ≤ c.2 := by
  have hw : 1 ≤ t + 1 - f := by omega
  refine ⟨chunkAt f t m ((x - f) / m), ?_, ?_, ?_⟩
  · rw [chunks_mem_iff f t m hm]
    refine ⟨(x - f) / m, ?_, rfl⟩
    rw [ceilDiv_eq_div_succ _ m hw hm]
    have h1 : x - f ≤ t + 1 - f - 1 := by omega
    have h2 : (x - f) / m ≤ (t + 1 - f - 1) / m := Nat.div_le_div_right h1
    omega
  · unfold chunkAt
    simp only
    have h3 : (x - f) / m * m ≤ x - f := Nat.div_mul_le_self _ _
    omega
  · unfold chunkAt
    simp only
    have h4 := Nat.div_add_mod (x - f) m
    have h5 : (x - f) % m < m := Nat.mod_lt _ (by omega)
    have h6 : (x - f) / m * m = m * ((x - f) / m) := Nat.mul_comm _ _
    apply le_min
    · omega
    · exact hxt

theorem chunks_head (f t m : Nat) (hft : f ≤ t) (hm : 1 ≤ m) :
    (chunks f t m).head?.map Prod.fst = some f := by
  have hw : 1 ≤ t + 1 - f := by omega
  have hpos := ceilDiv_pos (t + 1 - f) m hw hm
  rw [chunks_closed f t m hm]
  rcases Nat.exists_eq_add_of_le hpos with ⟨k, hk⟩
  rw [hk, Nat.add_comm 1 k, List.range_succ_eq_map]
  simp [chunkAt]

/-- The chunk list split as its leading chunks plus the final chunk, whose
endpoint is exactly t. -/
theorem chunks_concat (f t m : Nat) (hft : f ≤ t) (hm : 1 ≤ m) :
    ∃ pre lc, chunks f t m = pre ++ [lc] ∧ lc.2 = t := by
  have hw : 1 ≤ t + 1 - f := by omega
  have hpos := ceilDiv_pos (t + 1 - f) m hw hm
  set n := ceilDiv (t + 1 - f) m with hn
  rcases Nat.exists_eq_add_of_le hpos with ⟨k, hk⟩
  refine ⟨(List.range k).map (chunkAt f t m), chunkAt f t m k, ?_, ?_⟩
  · rw [chunks_closed f t m hm, ← hn, hk, Nat.add_comm 1 k, List.range_succ,
      List.map_append]
    rfl
  · unfold chunkAt
    simp only
    apply Nat.min_eq_right
    have h1 : t + 1 - f ≤ m * n := le_mul_ceilDiv _ m hm
    have h2 : m * n = m * k + m := by rw [hk]; ring
    have h3 : k * m = m * k := Nat.mul_comm _ _
    omega

theorem processTransferEvent_ok (env : Env) (cfg : ContractConfig)
    (db : List Transaction) (l : Log) (db2 : List Transaction)
    (h : processTransferEvent env cfg db l = Except.ok db2) :
    ¬(l.topics.length < 3 ∨ l.data.length < 32) ∧
      ∃ ts, env.blockByNumber l.blockNumber = Except.ok ts ∧
        env.insertFails (mkTransferTx cfg l ts) = false ∧
        (∀ t ∈ db, t.txHash ≠ l.txHash) ∧
        db2 = db ++ [mkTransferTx cfg l ts] := by
  unfold processTransferEvent at h
  split at h
  · exact absurd h (by simp)
  · rename_i hshape
    refine ⟨hshape, ?_⟩
    cases hbn : env.blockByNumber l.blockNumber with
    | error e => rw [hbn] at h; exact absurd h (by simp)
    | ok ts =>
      rw [hbn] at h
      have h2 : dbCreate env db (mkTransferTx cfg l ts) = Except.ok db2 := h
      refine ⟨ts, rfl, ?_⟩
      unfold dbCreate at h2
      split at h2
      · exact absurd h2 (by simp)
      · rename_i hins
        split at h2
        · exact absurd h2 (by simp)
        · rename_i hdup
          have hnd : ∀ t ∈ db, t.txHash ≠ l.txHash := by
            intro t ht heq
            apply hdup
            rw [List.any_eq_true]
            refine ⟨t, ht, ?_⟩
            simp only [show (mkTransferTx cfg l ts).txHash = l.txHash from rfl, heq,
              beq_self_eq_true]
          refine ⟨by simpa using hins, hnd, ?_⟩
          injection h2 with h3
          exact h3.symm

theorem processTransferEvent_malformed (env : Env) (cfg : ContractConfig)
    (db : List Transaction) (l : Log)
    (h : l.topics.length < 3 ∨ l.data.length < 32) :
    processTransferEvent env cfg db l = Except.error "invalid transfer event data" := by
  unfold processTransferEvent
  rw [if_pos h]

theorem processLogs_skip (env : Env) (cfg : ContractConfig)
    (db : List Transaction) (l : Log) (rest : List Log) (e : String)
    (h : processTransferEvent env cfg db l = Except.error e) :
    processLogs env cfg db (l :: rest) = processLogs env cfg db rest := by
  show (match processTransferEvent env cfg db l with
    | Except.error _ => processLogs env cfg db rest
    | Except.ok db2 => processLogs env cfg db2 rest) = processLogs env cfg db rest
  rw [h]

theorem processLogs_allFail (env : Env) (cfg : ContractConfig)
    (hins : ∀ tx, env.insertFails tx = true) :
    ∀ (logs : List Log) (db : List Transaction), processLogs env cfg db logs = db := by
  intro logs
  induction logs with
  | nil => intro db; rfl
  | cons l rest ih =>
    intro db
    cases h : processTransferEvent env cfg db l with
    | error e =>
      rw [processLogs_skip env cfg db l rest e h]
      exact ih db
    | ok db2 =>
      rcases processTransferEvent_ok env cfg db l db2 h with ⟨_, ts, _, hok, _, _⟩
      rw [hins (mkTransferTx cfg l ts)] at hok
      exact absurd hok (by simp)

theorem processLogs_dup (env : Env) (cfg : ContractConfig) :
    ∀ (logs : List Log) (db : List Transaction),
      (∀ l ∈ logs, ∃ t ∈ db, t.txHash = l.txHash) →
      processLogs env cfg db logs = db := by
  intro logs
  induction logs with
  | nil => intro db _; rfl
  | cons l rest ih =>
    intro db hdup
    cases h : processTransferEvent env cfg db l with
    | error e =>
      rw [processLogs_skip env cfg db l rest e h]
      exact ih db (fun x hx => hdup x (List.mem_cons_of_mem l hx))
    | ok db2 =>
      rcases processTransferEvent_ok env cfg db l db2 h with ⟨_, ts, _, _, hnd, _⟩
      rcases hdup l (List.mem_cons_self l rest) with ⟨t, ht, heq⟩
      exact absurd heq (hnd t ht)

theorem processLogs_provenance (env : Env) (cfg : ContractConfig) :
    ∀ (logs : List Log) (db : List Transaction) (tx : Transaction),
      tx ∈ processLogs env cfg db logs →
      tx ∈ db ∨ ∃ l ∈ logs, ∃ ts,
        env.blockByNumber l.blockNumber = Except.ok ts ∧ tx = mkTransferTx cfg l ts := by
  intro logs
  induction logs with
  | nil => intro db tx h; exact Or.inl h
  | cons l rest ih =>
    intro db tx h
    cases hev : processTransferEvent env cfg db l with
    | error e =>
      rw [processLogs_skip env cfg db l rest e hev] at h
      rcases ih db tx h with h1 | ⟨l2, hl2, ts, hts, htx⟩
      · exact Or.inl h1
      · exact Or.inr ⟨l2, List.mem_cons_of_mem l hl2, ts, hts, htx⟩
    | ok db2 =>
      unfold processLogs at h
      rw [hev] at h
      rcases processTransferEvent_ok env cfg db l db2 hev with ⟨_, ts, hts, _, _, hdb2⟩
      rcases ih db2 tx h with h1 | ⟨l2, hl2, ts2, hts2, htx2⟩
      · rw [hdb2] at h1
        rcases List.mem_append.mp h1 with h2 | h2
        · exact Or.inl h2
        · refine Or.inr ⟨l, List.mem_cons_self l rest, ts, hts, ?_⟩
          simpa using h2
      · exact Or.inr ⟨l2, List.mem_cons_of_mem l hl2, ts2, hts2, htx2⟩

theorem beNat_append (bs : Bytes) (b : Nat) :
    beNat (bs ++ [b]) = beNat bs * 256 + b := by
  unfold beNat
  rw [List.foldl_append]
  rfl

theorem leNat_reverse_eq_beNat (bs : Bytes) : leNat bs.reverse = beNat bs := by
  induction bs using List.reverseRecOn with
  | nil => rfl
  | append_singleton xs x ih =>
    rw [beNat_append, List.reverse_append, ← ih]
    simp only [List.reverse_cons, List.reverse_nil, List.nil_append, List.singleton_append]
    rw [leNat]
    ring

/-- The fetch for a chunk succeeds in the given environment. -/
def FetchOk (env : Env) (cfg : ContractConfig) (c : Nat × Nat) : Prop :=
  ∃ logs, env.filterLogs (transferQuery cfg c.1 c.2) = Except.ok logs

theorem processBlockRange_ok (env : Env) (cfg : ContractConfig)
    (db : List Transaction) (a b : Nat) (logs : List Log)
    (h : env.filterLogs (transferQuery cfg a b) = Except.ok logs) :
    processBlockRange env cfg db a b = Except.ok (processLogs env cfg db logs) := by
  unfold processBlockRange
  rw [h]

theorem processBlockRange_error (env : Env) (cfg : ContractConfig)
    (db : List Transaction) (a b : Nat) (e : String)
    (h : env.filterLogs (transferQuery cfg a b) = Except.error e) :
    processBlockRange env cfg db a b =
      Except.error ("failed to filter logs: " ++ e) := by
  unfold processBlockRange
  rw [h]

theorem processBlockRange_ok_inv (env : Env) (cfg : ContractConfig)
    (db : List Transaction) (a b : Nat) (db2 : List Transaction)
    (h : processBlockRange env cfg db a b = Except.ok db2) :
    ∃ logs, env.filterLogs (transferQuery cfg a b) = Except.ok logs ∧
      db2 = processLogs env cfg db logs := by
  unfold processBlockRange at h
  cases hf : env.filterLogs (transferQuery cfg a b) with
  | error e => rw [hf] at h; exact absurd h (by simp)
  | ok logs =>
    rw [hf] at h
    injection h with h2
    exact ⟨logs, rfl, h2.symm⟩

/-- The per-address write made by a successful chunk. -/
def chunkWrite (cfg : ContractConfig) (c : Nat × Nat) : String × Nat :=
  (cfg.addressHex, c.2)

theorem runChunks_fetchOk (env : Env) (cfg : ContractConfig) :
    ∀ (cs : List (Nat × Nat)) (s : TickState),
      (∀ c ∈ cs, FetchOk env cfg c) →
      (runChunks env cfg s cs).2 = none ∧
        (runChunks env cfg s cs).1.progress =
          (cs.map (chunkWrite cfg)).reverse ++ s.progress := by
  intro cs
  induction cs with
  | nil => intro s _; exact ⟨rfl, rfl⟩
  | cons c rest ih =>
    intro s hok
    rcases hok c (List.mem_cons_self c rest) with ⟨logs, hlogs⟩
    have hpbr := processBlockRange_ok env cfg s.db c.1 c.2 logs hlogs
    have hstep : runChunks env cfg s (c :: rest) =
        runChunks env cfg
          { db := processLogs env cfg s.db logs
            progress := updateLastProcessedBlock s.progress cfg.addressHex c.2 }
          rest := by
      show (match processBlockRange env cfg s.db c.1 c.2 with
        | Except.error e => (s, some ("failed to process blocks: " ++ e))
        | Except.ok db2 =>
          runChunks env cfg
            { db := db2
              progress := updateLastProcessedBlock s.progress cfg.addressHex c.2 }
            rest) = _
      rw [hpbr]
    rw [hstep]
    rcases ih _ (fun d hd => hok d (List.mem_cons_of_mem c hd)) with ⟨h1, h2⟩
    refine ⟨h1, ?_⟩
    rw [h2]
    show (rest.map (chunkWrite cfg)).reverse ++ (chunkWrite cfg c :: s.progress) =
      ((c :: rest).map (chunkWrite cfg)).reverse ++ s.progress
    rw [List.map_cons, List.reverse_cons, List.append_assoc]
    rfl

theorem runChunks_trace (env : Env) (cfg : ContractConfig) :
    ∀ (cs : List (Nat × Nat)) (s : TickState),
      ∃ k, k ≤ cs.length ∧
        (runChunks env cfg s cs).1.progress =
          ((cs.take k).map (chunkWrite cfg)).reverse ++ s.progress := by
  intro cs
  induction cs with
  | nil => intro s; exact ⟨0, Nat.le_refl 0, rfl⟩
  | cons c rest ih =>
    intro s
    cases hpbr : processBlockRange env cfg s.db c.1 c.2 with
    | error e =>
      refine ⟨0, by simp, ?_⟩
      have hstep : runChunks env cfg s (c :: rest) =
          (s, some ("failed to process blocks: " ++ e)) := by
        show (match processBlockRange env cfg s.db c.1 c.2 with
          | Except.error e => (s, some ("failed to process blocks: " ++ e))
          | Except.ok db2 =>
            runChunks env cfg
              { db := db2
                progress := updateLastProcessedBlock s.progress cfg.addressHex c.2 }
              rest) = _
        rw [hpbr]
      rw [hstep]
      simp
    | ok db2 =>
      have hstep : runChunks env cfg s (c :: rest) =
          runChunks env cfg
            { db := db2
              progress := updateLastProcessedBlock s.progress cfg.addressHex c.2 }
            rest := by
        show (match processBlockRange env cfg s.db c.1 c.2 with
          | Except.error e => (s, some ("failed to process blocks: " ++ e))
          | Except.ok db2 =>
            runChunks env cfg
              { db := db2
                progress := updateLastProcessedBlock s.progress cfg.addressHex c.2 }
              rest) = _
        rw [hpbr]
      rw [hstep]
      rcases ih ⟨db2, updateLastProcessedBlock s.progress cfg.addressHex c.2⟩ with
        ⟨k, hk, hprog⟩
      refine ⟨k + 1, by simpa using Nat.succ_le_succ hk, ?_⟩
      rw [hprog]
      show ((rest.take k).map (chunkWrite cfg)).reverse ++ (chunkWrite cfg c :: s.progress) =
        (((c :: rest).take (k + 1)).map (chunkWrite cfg)).reverse ++ s.progress
      rw [List.take_succ_cons, List.map_cons, List.reverse_cons, List.append_assoc]
      rfl

theorem runChunks_split (env : Env) (cfg : ContractConfig) :
    ∀ (pre : List (Nat × Nat)) (s : TickState) (c : Nat × Nat)
      (rest : List (Nat × Nat)) (e : String),
      (∀ d ∈ pre, FetchOk env cfg d) →
      env.filterLogs (transferQuery cfg c.1 c.2) = Except.error e →
      (runChunks env cfg s (pre ++ c :: rest)).2 =
          some ("failed to process blocks: failed to filter logs: " ++ e) ∧
        (runChunks env cfg s (pre ++ c :: rest)).1.progress =
          (pre.map (chunkWrite cfg)).reverse ++ s.progress := by
  intro pre
  induction pre with
  | nil =>
    intro s c rest e _ hfail
    have hpbr := processBlockRange_error env cfg s.db c.1 c.2 e hfail
    have hstep : runChunks env cfg s ([] ++ c :: rest) =
        (s, some ("failed to process blocks: " ++ ("failed to filter logs: " ++ e))) := by
      show (match processBlockRange env cfg s.db c.1 c.2 with
        | Except.error e => (s, some ("failed to process blocks: " ++ e))
        | Except.ok db2 =>
          runChunks env cfg
            { db := db2
              progress := updateLastProcessedBlock s.progress cfg.addressHex c.2 }
            rest) = _
      rw [hpbr]
    rw [hstep]
    constructor
    · show some _ = some _
      rw [← String.append_assoc]
      rfl
    · rfl
  | cons d pre ih =>
    intro s c rest e hok hfail
    rcases hok d (List.mem_cons_self d pre) with ⟨logs, hlogs⟩
    have hpbr := processBlockRange_ok env cfg s.db d.1 d.2 logs hlogs
    have hstep : runChunks env cfg s ((d :: pre) ++ c :: rest) =
        runChunks env cfg
          { db := processLogs env cfg s.db logs
            progress := updateLastProcessedBlock s.progress cfg.addressHex d.2 }
          (pre ++ c :: rest) := by
      show (match processBlockRange env cfg s.db d.1 d.2 with
        | Except.error e => (s, some ("failed to process blocks: " ++ e))
        | Except.ok db2 =>
          runChunks env cfg
            { db := db2
              progress := updateLastProcessedBlock s.progress cfg.addressHex d.2 }
            (pre ++ c :: rest)) = _
      rw [hpbr]
    rw [hstep]
    rcases ih _ c rest e (fun x hx => hok x (List.mem_cons_of_mem d hx)) hfail with ⟨h1, h2⟩
    refine ⟨h1, ?_⟩
    rw [h2]
    show (pre.map (chunkWrite cfg)).reverse ++ (chunkWrite cfg d :: s.progress) =
      ((d :: pre).map (chunkWrite cfg)).reverse ++ s.progress
    rw [List.map_cons, List.reverse_cons, List.append_assoc]
    rfl

theorem runChunks_allFail_db (env : Env) (cfg : ContractConfig)
    (hins : ∀ tx, env.insertFails tx = true) :
    ∀ (cs : List (Nat × Nat)) (s : TickState),
      (runChunks env cfg s cs).1.db = s.db := by
  intro cs
  induction cs with
  | nil => intro s; rfl
  | cons c rest ih =>
    intro s
    cases hpbr : processBlockRange env cfg s.db c.1 c.2 with
    | error e =>
      have hstep : runChunks env cfg s (c :: rest) =
          (s, some ("failed to process blocks: " ++ e)) := by
        show (match processBlockRange env cfg s.db c.1 c.2 with
          | Except.error e => (s, some ("failed to process blocks: " ++ e))
          | Except.ok db2 =>
            runChunks env cfg
              { db := db2
                progress := updateLastProcessedBlock s.progress cfg.addressHex c.2 }
              rest) = _
        rw [hpbr]
      rw [hstep]
    | ok db2 =>
      rcases processBlockRange_ok_inv env cfg s.db c.1 c.2 db2 hpbr with ⟨logs, _, hdb2⟩
      have hdb2e : db2 = s.db := by
        rw [hdb2, processLogs_allFail env cfg hins]
      have hstep : runChunks env cfg s (c :: rest) =
          runChunks env cfg
            { db := db2
              progress := updateLastProcessedBlock s.progress cfg.addressHex c.2 }
            rest := by
        show (match processBlockRange env cfg s.db c.1 c.2 with
          | Except.error e => (s, some ("failed to process blocks: " ++ e))
          | Except.ok db2 =>
            runChunks env cfg
              { db := db2
                progress := updateLastProcessedBlock s.progress cfg.addressHex c.2 }
              rest) = _
        rw [hpbr]
      rw [hstep, ih, hdb2e]

theorem getLastProcessedBlock_cons (p : List (String × Nat)) (addr : String) (n : Nat) :
    getLastProcessedBlock ((addr, n) :: p) addr = n := by
  unfold getLastProcessedBlock
  simp [List.lookup]

theorem processContractEvents_run (env : Env) (cfg : ContractConfig) (m : Nat)
    (s : TickState) (t : Nat) (hbn : env.blockNumber = Except.ok t)
    (hlt : max (getLastProcessedBlock s.progress cfg.addressHex) cfg.startBlock < t) :
    processContractEvents env cfg m s =
      runChunks env cfg s
        (chunks (max (getLastProcessedBlock s.progress cfg.addressHex) cfg.startBlock + 1)
          t m) := by
  show (match env.blockNumber with
    | Except.error e => (s, some ("failed to get current block number: " ++ e))
    | Except.ok currentBlock =>
      if currentBlock ≤ max (getLastProcessedBlock s.progress cfg.addressHex) cfg.startBlock
      then (s, none)
      else runChunks env cfg s
        (chunks (max (getLastProcessedBlock s.progress cfg.addressHex) cfg.startBlock + 1)
          currentBlock m)) = _
  rw [hbn]
  show (if t ≤ max (getLastProcessedBlock s.progress cfg.addressHex) cfg.startBlock
    then (s, none)
    else runChunks env cfg s
      (chunks (max (getLastProcessedBlock s.progress cfg.addressHex) cfg.startBlock + 1)
        t m)) = _
  rw [if_neg (by omega)]

theorem processContractEvents_skip (env : Env) (cfg : ContractConfig) (m : Nat)
    (s : TickState) (t : Nat) (hbn : env.blockNumber = Except.ok t)
    (hge : t ≤ max (getLastProcessedBlock s.progress cfg.addressHex) cfg.startBlock) :
    processContractEvents env cfg m s = (s, none) := by
  show (match env.blockNumber with
    | Except.error e => (s, some ("failed to get current block number: " ++ e))
    | Except.ok currentBlock =>
      if currentBlock ≤ max (getLastProcessedBlock s.progress cfg.addressHex) cfg.startBlock
      then (s, none)
      else runChunks env cfg s
        (chunks (max (getLastProcessedBlock s.progress cfg.addressHex) cfg.startBlock + 1)
          currentBlock m)) = _
  rw [hbn]
  show (if t ≤ max (getLastProcessedBlock s.progress cfg.addressHex) cfg.startBlock
    then (s, none)
    else runChunks env cfg s
      (chunks (max (getLastProcessedBlock s.progress cfg.addressHex) cfg.startBlock + 1)
        t m)) = _
  rw [if_pos hge]

theorem chunksFuel_width_zero : ∀ (n f t : Nat), f ≤ t →
    (chunksFuel n f t 0).length = n := by
  intro n
  induction n with
  | zero => intro f t _; rfl
  | succ k ih =>
    intro f t hft
    rw [chunksFuel, if_pos hft]
    simp only [List.length_cons, Nat.add_zero]
    rw [ih f t hft]

/-- C5: for every range [from, to] with from ≤ to and every maximum chunk
width M ≥ 1, the batching loop produces ceil((to-from+1)/M) chunks that
are consecutive (each chunk starts right after the previous one ends),
each of width at most M, in strictly ascending block order without
overlap, and covering exactly the blocks of [from, to]. -/
theorem c5_chunk_boundary_correctness (f t m : Nat) (hft : f ≤ t) (hm : 1 ≤ m) :
    (chunks f t m).length = ceilDiv (t - f + 1) m ∧
      (∀ c ∈ chunks f t m, c.1 ≤ c.2 ∧ c.2 + 1 - c.1 ≤ m) ∧
      List.Chain' (fun c d => c.2 + 1 = d.1) (chunks f t m) ∧
      List.Pairwise (fun c d => c.2 < d.1) (chunks f t m) ∧
      (∀ x, (∃ c ∈ chunks f t m, c.1 ≤ x ∧ x ≤ c.2) ↔ (f ≤ x ∧ x ≤ t)) := by
  refine ⟨?_, ?_, chunks_chain f t m hft hm, chunks_pairwise f t m hft hm, ?_⟩
  · rw [chunks_length f t m hm]
    have h1 : t - f + 1 = t + 1 - f := by omega
    rw [h1]
  · intro c hc
    rcases chunks_elem_facts f t m hft hm c hc with ⟨_, h2, _, h4, _⟩
    exact ⟨h2, h4⟩
  · intro x
    constructor
    · rintro ⟨c, hc, hcx, hxc⟩
      rcases chunks_elem_facts f t m hft hm c hc with ⟨h1, _, h3, _, _⟩
      exact ⟨by omega, by omega⟩
    · rintro ⟨hfx, hxt⟩
      exact chunks_cover f t m hft hm x hfx hxt

theorem c5_chunk_boundary_correctness_witness :
    (100 : Nat) ≤ 250 ∧ (1 : Nat) ≤ 50 ∧
      ((chunks 100 250 50).length = ceilDiv (250 - 100 + 1) 50 ∧
        (∀ c ∈ chunks 100 250 50, c.1 ≤ c.2 ∧ c.2 + 1 - c.1 ≤ 50) ∧
        List.Chain' (fun c d => c.2 + 1 = d.1) (chunks 100 250 50) ∧
        List.Pairwise (fun c d => c.2 < d.1) (chunks 100 250 50) ∧
        (∀ x, (∃ c ∈ chunks 100 250 50, c.1 ≤ x ∧ x ≤ c.2) ↔ (100 ≤ x ∧ x ≤ 250))) :=
  ⟨by decide, by decide, c5_chunk_boundary_correctness 100 250 50 (by decide) (by decide)⟩

/-- C10: with batch size m ≥ 1 the batching loop over
(lastBlock, currentBlock] exits by its own condition within
ceil((currentBlock - lastBlock)/m) iterations (any fuel of at least the
range width yields the same chunk list, whose length is exactly that
ceiling); with m = 0 the loop never exits by its condition: after any
number of iterations it is still running, so m ≥ 1 is a genuine
precondition of termination. -/
theorem c10_chunk_loop_termination (lastBlock currentBlock m : Nat)
    (h : lastBlock < currentBlock) :
    (1 ≤ m → ∀ fuel, currentBlock - lastBlock ≤ fuel →
      chunksFuel fuel (lastBlock + 1) currentBlock m =
          chunks (lastBlock + 1) currentBlock m ∧
        (chunks (lastBlock + 1) currentBlock m).length =
          ceilDiv (currentBlock - lastBlock) m) ∧
      (m = 0 → ∀ n, (chunksFuel n (lastBlock + 1) currentBlock m).length = n) := by
  constructor
  · intro hm fuel hfuel
    have hw : currentBlock + 1 - (lastBlock + 1) = currentBlock - lastBlock := by omega
    constructor
    · rw [chunksFuel_closed m hm fuel (lastBlock + 1) currentBlock (by omega),
        chunks_closed (lastBlock + 1) currentBlock m hm]
    · rw [chunks_length (lastBlock + 1) currentBlock m hm, hw]
  · intro hm n
    subst hm
    exact chunksFuel_width_zero n (lastBlock + 1) currentBlock (by omega)

theorem c10_chunk_loop_termination_witness :
    (100 : Nat) < 250 ∧
      ((1 ≤ 50 → ∀ fuel, 250 - 100 ≤ fuel →
        chunksFuel fuel (100 + 1) 250 50 = chunks (100 + 1) 250 50 ∧
          (chunks (100 + 1) 250 50).length = ceilDiv (250 - 100) 50) ∧
        ((50 : Nat) = 0 → ∀ n, (chunksFuel n (100 + 1) 250 50).length = n)) :=
  ⟨by decide, c10_chunk_loop_termination 100 250 50 (by decide)⟩

/-- A successful tick with every chunk fetch succeeding: no error is
returned and the checkpoint ends at the chain height. -/
theorem tick_fetchOk_final (env : Env) (cfg : ContractConfig) (m : Nat)
    (s : TickState) (t : Nat) (hm : 1 ≤ m) (hbn : env.blockNumber = Except.ok t)
    (hlt : max (getLastProcessedBlock s.progress cfg.addressHex) cfg.startBlock < t)
    (hfetch : ∀ c : Nat × Nat, FetchOk env cfg c) :
    (processContractEvents env cfg m s).2 = none ∧
      getLastProcessedBlock (processContractEvents env cfg m s).1.progress
        cfg.addressHex = t := by
  set f := max (getLastProcessedBlock s.progress cfg.addressHex) cfg.startBlock + 1 with hf
  have hft : f ≤ t := by omega
  rw [processContractEvents_run env cfg m s t hbn hlt, ← hf]
  rcases runChunks_fetchOk env cfg (chunks f t m) s (fun c _ => hfetch c) with ⟨h1, h2⟩
  refine ⟨h1, ?_⟩
  rcases chunks_concat f t m hft hm with ⟨pre, lc, hcs, hlc⟩
  rw [h2, hcs, List.map_append, List.reverse_append]
  simp only [List.map_cons, List.map_nil, List.reverse_cons, List.reverse_nil,
    List.nil_append, List.singleton_append, List.cons_append]
  show getLastProcessedBlock
    ((cfg.addressHex, lc.2) :: ((pre.map (chunkWrite cfg)).reverse ++ s.progress))
    cfg.addressHex = t
  rw [getLastProcessedBlock_cons, hlc]

/-- A monitored contract used in the concrete scenarios. -/
def cfgA : ContractConfig :=
  { name := "USDC"
    addressHex := "0xabc"
    startBlock := 100 }

/-- A 32-byte topic value whose last byte is b. -/
def padTopic (b : Nat) : Bytes := List.replicate 31 0 ++ [b]

/-- A well-formed Transfer log: signature first topic, two address topics,
32 data bytes. -/
def logGood : Log :=
  { address := "0xabc"
    topics := [transferSig, padTopic 1, padTopic 2]
    data := List.replicate 31 0 ++ [5]
    txHash := "0xt1"
    blockNumber := 105
    index := 0 }

/-- Chain at height 250; every fetch succeeds with no logs; per the spec
reading of C1 the first fetched chunk would be [100, 149], so this
environment fails any fetch starting at block 100. -/
def env1 : Env :=
  { blockNumber := Except.ok 250
    filterLogs := fun q =>
      if q.fromBlock = 100 then Except.error "spec expected a fetch from block 100"
      else Except.ok []
    blockByNumber := fun _ => Except.ok 0
    insertFails := fun _ => false }

/-- Chain at height 250, all fetches succeed with no logs, inserts work. -/
def envOkEmpty : Env :=
  { blockNumber := Except.ok 250
    filterLogs := fun _ => Except.ok []
    blockByNumber := fun _ => Except.ok 0
    insertFails := fun _ => false }

/-- Chain at height 120, one well-formed Transfer log in every fetch, and
a store whose every insert fails. -/
def envInsertFail : Env :=
  { blockNumber := Except.ok 120
    filterLogs := fun _ => Except.ok [logGood]
    blockByNumber := fun _ => Except.ok 1700000000
    insertFails := fun _ => true }

/-- C1 (counterexample): for a contract with no stored checkpoint and
start height 100 at chain height 250 with chunk width 50, the code
computes its first block as max(checkpoint, start) + 1 = 101, not
max(checkpoint + 1, start) = 100 as the claim states: the processed
chunks are [101,150],[151,200],[201,250], block 100 is never fetched (an
environment failing any fetch from block 100 still yields a fully
successful tick), and the checkpoint ends at 250. -/
theorem c1_counterexample :
    chunks (max (getLastProcessedBlock [] cfgA.addressHex) cfgA.startBlock + 1) 250 50 =
        [(101, 150), (151, 200), (201, 250)] ∧
      max (getLastProcessedBlock [] cfgA.addressHex) cfgA.startBlock + 1 ≠
        max (getLastProcessedBlock [] cfgA.addressHex + 1) cfgA.startBlock ∧
      processContractEvents env1 cfgA 50 ⟨[], []⟩ =
        (⟨[], [("0xabc", 250), ("0xabc", 200), ("0xabc", 150)]⟩, none) := by
  refine ⟨by decide, by decide, by decide⟩

/-- C1 (amended): on each poll tick the first block of the computed
unprocessed range equals max(last_checkpoint, start_height) + 1 — this
agrees with the claimed max(last_checkpoint + 1, start_height) when a
checkpoint at or above the start height exists, but a contract whose
checkpoint is absent or below its start height begins at
start_height + 1, so the start block itself is never processed; after a
fully successful tick the checkpoint equals the chain height. -/
theorem c1_amended (env : Env) (cfg : ContractConfig) (m : Nat) (s : TickState)
    (t : Nat) (hm : 1 ≤ m) (hbn : env.blockNumber = Except.ok t)
    (hlt : max (getLastProcessedBlock s.progress cfg.addressHex) cfg.startBlock < t)
    (hfetch : ∀ c : Nat × Nat, FetchOk env cfg c) :
    ((chunks (max (getLastProcessedBlock s.progress cfg.addressHex) cfg.startBlock + 1)
          t m).head?.map Prod.fst =
        some (max (getLastProcessedBlock s.progress cfg.addressHex) cfg.startBlock + 1)) ∧
      (processContractEvents env cfg m s).2 = none ∧
      getLastProcessedBlock (processContractEvents env cfg m s).1.progress
        cfg.addressHex = t := by
  have hhead := chunks_head
    (max (getLastProcessedBlock s.progress cfg.addressHex) cfg.startBlock + 1) t m
    (by omega) hm
  rcases tick_fetchOk_final env cfg m s t hm hbn hlt hfetch with ⟨h1, h2⟩
  exact ⟨hhead, h1, h2⟩

theorem c1_amended_witness :
    (1 : Nat) ≤ 50 ∧ envOkEmpty.blockNumber = Except.ok 250 ∧
      max (getLastProcessedBlock (TickState.mk [] []).progress cfgA.addressHex)
          cfgA.startBlock < 250 ∧
      (∀ c : Nat × Nat, FetchOk envOkEmpty cfgA c) ∧
      (((chunks
            (max (getLastProcessedBlock (TickState.mk [] []).progress cfgA.addressHex)
                cfgA.startBlock + 1) 250 50).head?.map Prod.fst =
          some (max (getLastProcessedBlock (TickState.mk [] []).progress cfgA.addressHex)
              cfgA.startBlock + 1)) ∧
        (processContractEvents envOkEmpty cfgA 50 (TickState.mk [] [])).2 = none ∧
        getLastProcessedBlock
          (processContractEvents envOkEmpty cfgA 50 (TickState.mk [] [])).1.progress
          cfgA.addressHex = 250) :=
  ⟨by decide, rfl, by decide, fun c => ⟨[], rfl⟩,
    c1_amended envOkEmpty cfgA 50 (TickState.mk [] []) 250 (by decide) rfl (by decide)
      (fun c => ⟨[], rfl⟩)⟩

/-- C2 (counterexample): with no stored checkpoint, start height 100,
chain height 120, chunk width 50 (a single chunk K = 1 of [101, 120]) and
one decodable log whose Event Store insert fails, the insert error is
swallowed: the tick returns no error and the checkpoint advances to 120,
the end of chunk K, although the claim requires the tick to abort with
the checkpoint unchanged. -/
theorem c2_counterexample :
    processTransferEvent envInsertFail cfgA [] logGood =
        Except.error "failed to save transaction" ∧
      (processContractEvents envInsertFail cfgA 50 ⟨[], []⟩).2 = none ∧
      getLastProcessedBlock
        (processContractEvents envInsertFail cfgA 50 ⟨[], []⟩).1.progress
        cfgA.addressHex = 120 := by
  refine ⟨by rfl, by decide, by decide⟩

/-- C2 (amended): a failed Event Store insert is logged and only that
record is skipped; the tick is not aborted and the checkpoint still
advances to the end of every chunk of the tick: even when every insert
fails, a tick whose fetches all succeed completes without error, leaves
the record store unchanged, and moves the checkpoint to the chain
height; the failed records are not re-derived by the next tick. -/
theorem c2_amended (env : Env) (cfg : ContractConfig) (m : Nat) (s : TickState)
    (t : Nat) (hm : 1 ≤ m) (hbn : env.blockNumber = Except.ok t)
    (hlt : max (getLastProcessedBlock s.progress cfg.addressHex) cfg.startBlock < t)
    (hfetch : ∀ c : Nat × Nat, FetchOk env cfg c)
    (hins : ∀ tx, env.insertFails tx = true) :
    (processContractEvents env cfg m s).2 = none ∧
      (processContractEvents env cfg m s).1.db = s.db ∧
      getLastProcessedBlock (processContractEvents env cfg m s).1.progress
        cfg.addressHex = t := by
  rcases tick_fetchOk_final env cfg m s t hm hbn hlt hfetch with ⟨h1, h2⟩
  refine ⟨h1, ?_, h2⟩
  rw [processContractEvents_run env cfg m s t hbn hlt]
  exact runChunks_allFail_db env cfg hins _ s

theorem c2_amended_witness :
    (1 : Nat) ≤ 50 ∧ envInsertFail.blockNumber = Except.ok 120 ∧
      max (getLastProcessedBlock (TickState.mk [] []).progress cfgA.addressHex)
          cfgA.startBlock < 120 ∧
      (∀ c : Nat × Nat, FetchOk envInsertFail cfgA c) ∧
      (∀ tx, envInsertFail.insertFails tx = true) ∧
      ((processContractEvents envInsertFail cfgA 50 (TickState.mk [] [])).2 = none ∧
        (processContractEvents envInsertFail cfgA 50 (TickState.mk [] [])).1.db =
          (TickState.mk [] []).db ∧
        getLastProcessedBlock
          (processContractEvents envInsertFail cfgA 50 (TickState.mk [] [])).1.progress
          cfgA.addressHex = 120) :=
  ⟨by decide, rfl, by decide, fun c => ⟨[logGood], rfl⟩, fun tx => rfl,
    c2_amended envInsertFail cfgA 50 (TickState.mk [] []) 120 (by decide) rfl (by decide)
      (fun c => ⟨[logGood], rfl⟩) (fun tx => rfl)⟩

theorem dbCreate_ok_inv (env : Env) (d : List Transaction) (tx : Transaction)
    (d2 : List Transaction) (h : dbCreate env d tx = Except.ok d2) :
    d2 = d ++ [tx] ∧ ∀ t ∈ d, t.txHash ≠ tx.txHash := by
  unfold dbCreate at h
  split at h
  · exact absurd h (by simp)
  · split at h
    · exact absurd h (by simp)
    · rename_i hdup
      refine ⟨by injection h with h2; exact h2.symm, ?_⟩
      intro t ht heq
      apply hdup
      rw [List.any_eq_true]
      exact ⟨t, ht, by simp [heq]⟩

/-- An environment with one well-formed Transfer log in every fetch and a
working store. -/
def envDup : Env :=
  { blockNumber := Except.ok 120
    filterLogs := fun _ => Except.ok [logGood]
    blockByNumber := fun _ => Except.ok 1700000000
    insertFails := fun _ => false }

/-- The record decoded from logGood. -/
def txGood : Transaction := mkTransferTx cfgA logGood 1700000000

/-- C3: the Event Store insert never overwrites: a successful insert only
appends a record whose transaction hash differs from every stored one (a
duplicate key yields an error, leaving the store authoritative), and
re-running fetch-decode-persist over a range whose fetched logs all carry
already-stored transaction hashes returns the store unchanged — each
duplicate insert error is contained to its record and the rest of the
chunk is still traversed. -/
theorem c3_idempotent_refetch (env : Env) (cfg : ContractConfig)
    (db : List Transaction) (a b : Nat) (logs : List Log)
    (hfetch : env.filterLogs (transferQuery cfg a b) = Except.ok logs)
    (hdone : ∀ l ∈ logs, ∃ tx ∈ db, tx.txHash = l.txHash) :
    (∀ (d : List Transaction) (tx : Transaction) (d2 : List Transaction),
        dbCreate env d tx = Except.ok d2 →
          d2 = d ++ [tx] ∧ ∀ t ∈ d, t.txHash ≠ tx.txHash) ∧
      processBlockRange env cfg db a b = Except.ok db := by
  refine ⟨fun d tx d2 h => dbCreate_ok_inv env d tx d2 h, ?_⟩
  rw [processBlockRange_ok env cfg db a b logs hfetch,
    processLogs_dup env cfg logs db hdone]

theorem c3_idempotent_refetch_witness :
    envDup.filterLogs (transferQuery cfgA 101 120) = Except.ok [logGood] ∧
      (∀ l ∈ [logGood], ∃ tx ∈ [txGood], tx.txHash = l.txHash) ∧
      ((∀ (d : List Transaction) (tx : Transaction) (d2 : List Transaction),
          dbCreate envDup d tx = Except.ok d2 →
            d2 = d ++ [tx] ∧ ∀ t ∈ d, t.txHash ≠ tx.txHash) ∧
        processBlockRange envDup cfgA [txGood] 101 120 = Except.ok [txGood]) :=
  ⟨rfl, by decide,
    c3_idempotent_refetch envDup cfgA [txGood] 101 120 [logGood] rfl (by decide)⟩

theorem chunkAt_fst_le_snd (f t m i : Nat) (hft : f ≤ t) (hm : 1 ≤ m)
    (hi : i < ceilDiv (t + 1 - f) m) :
    (chunkAt f t m i).1 ≤ (chunkAt f t m i).2 := by
  have h1 := chunkAt_fst_le_t f t m i hft hm hi
  have hfst : (chunkAt f t m i).1 = f + i * m := rfl
  have hsnd : (chunkAt f t m i).2 = min (f + i * m + m - 1) t := rfl
  rw [hfst, hsnd]
  exact le_min (by omega) h1

theorem chunks_snd_pairwise (f t m : Nat) (hft : f ≤ t) (hm : 1 ≤ m) :
    List.Pairwise (fun x y => x < y) ((chunks f t m).map Prod.snd) := by
  rw [List.pairwise_map, List.pairwise_iff_get]
  intro i j hij
  rw [chunks_get f t m hm i.1 i.2, chunks_get f t m hm j.1 j.2]
  have hlen := chunks_length f t m hm
  have h1 := chunks_snd_lt_fst f t m hft hm i.1 j.1 hij (by omega)
  have h2 := chunkAt_fst_le_snd f t m j.1 hft hm (by omega)
  omega

theorem getLastProcessedBlock_keyed (addr : String)
    (L p : List (String × Nat)) (hkeys : ∀ x ∈ L, x.1 = addr) :
    getLastProcessedBlock (L ++ p) addr = getLastProcessedBlock p addr ∨
      ∃ v, getLastProcessedBlock (L ++ p) addr = v ∧ (addr, v) ∈ L := by
  cases L with
  | nil => exact Or.inl rfl
  | cons x L2 =>
    right
    have hx : x = (addr, x.2) := by
      have h1 : x.1 = addr := hkeys x (List.mem_cons_self x L2)
      exact Prod.ext h1 rfl
    refine ⟨x.2, ?_, ?_⟩
    · rw [List.cons_append]
      conv_lhs => rw [hx]
      exact getLastProcessedBlock_cons (L2 ++ p) addr x.2
    · rw [← hx]
      exact List.mem_cons_self x L2

/-- C4 (counterexample): with no stored checkpoint (height 0), start
height 100 and chain height 120, a tick whose single decodable log fails
to persist still advances the checkpoint from absent to 120 while the
record store stays empty: the checkpoint advanced although the events of
the range were not persisted. -/
theorem c4_counterexample :
    getLastProcessedBlock ([] : List (String × Nat)) cfgA.addressHex = 0 ∧
      (processContractEvents envInsertFail cfgA 50 ⟨[], []⟩).1.db = [] ∧
      getLastProcessedBlock
        (processContractEvents envInsertFail cfgA 50 ⟨[], []⟩).1.progress
        cfgA.addressHex = 120 := by
  refine ⟨by decide, by decide, by decide⟩

/-- C4 (amended): the checkpoint is monotonically non-decreasing: a tick
never lowers it (whatever the fetch or insert outcomes), the endpoints
the tick writes are strictly increasing along the chunk sequence, and
every written endpoint exceeds the previous checkpoint; the advance
happens once the chunk processing completed, which tolerates skipped
records whose decode or insert failed. -/
theorem c4_amended (env : Env) (cfg : ContractConfig) (m : Nat) (s : TickState)
    (t : Nat) (hm : 1 ≤ m) (hbn : env.blockNumber = Except.ok t)
    (hlt : max (getLastProcessedBlock s.progress cfg.addressHex) cfg.startBlock < t) :
    getLastProcessedBlock s.progress cfg.addressHex ≤
        getLastProcessedBlock (processContractEvents env cfg m s).1.progress
          cfg.addressHex ∧
      List.Pairwise (fun x y => x < y)
        ((chunks (max (getLastProcessedBlock s.progress cfg.addressHex)
            cfg.startBlock + 1) t m).map Prod.snd) ∧
      ∀ v ∈ (chunks (max (getLastProcessedBlock s.progress cfg.addressHex)
          cfg.startBlock + 1) t m).map Prod.snd,
        getLastProcessedBlock s.progress cfg.addressHex < v := by
  set old := getLastProcessedBlock s.progress cfg.addressHex with hold
  set f := max old cfg.startBlock + 1 with hf
  have hft : f ≤ t := by omega
  have hsnd : ∀ v ∈ (chunks f t m).map Prod.snd, old < v := by
    intro v hv
    rcases List.mem_map.mp hv with ⟨c, hc, hcv⟩
    rcases chunks_elem_facts f t m hft hm c hc with ⟨h1, h2, _, _, _⟩
    have h3 : old < f := by omega
    omega
  refine ⟨?_, chunks_snd_pairwise f t m hft hm, hsnd⟩
  rw [processContractEvents_run env cfg m s t hbn hlt, ← hf]
  rcases runChunks_trace env cfg (chunks f t m) s with ⟨k, hk, hprog⟩
  rw [hprog]
  have hkeys : ∀ x ∈ (((chunks f t m).take k).map (chunkWrite cfg)).reverse,
      x.1 = cfg.addressHex := by
    intro x hx
    rcases List.mem_map.mp (List.mem_reverse.mp hx) with ⟨c, _, hcx⟩
    rw [← hcx]
    rfl
  rcases getLastProcessedBlock_keyed cfg.addressHex _ s.progress hkeys with
    h | ⟨v, hv, hmem⟩
  · rw [h]
  · rw [hv]
    rcases List.mem_map.mp (List.mem_reverse.mp hmem) with ⟨c, hc, hcx⟩
    have hc2 : c ∈ chunks f t m := List.take_subset k _ hc
    have hv2 : v = c.2 := by
      have : (chunkWrite cfg c).2 = c.2 := rfl
      rw [← this, hcx]
    have h3 := hsnd c.2 (List.mem_map.mpr ⟨c, hc2, rfl⟩)
    omega

theorem c4_amended_witness :
    (1 : Nat) ≤ 50 ∧ envOkEmpty.blockNumber = Except.ok 250 ∧
      max (getLastProcessedBlock (TickState.mk [] []).progress cfgA.addressHex)
          cfgA.startBlock < 250 ∧
      (getLastProcessedBlock (TickState.mk [] []).progress cfgA.addressHex ≤
          getLastProcessedBlock
            (processContractEvents envOkEmpty cfgA 50 (TickState.mk [] [])).1.progress
            cfgA.addressHex ∧
        List.Pairwise (fun x y => x < y)
          ((chunks (max (getLastProcessedBlock (TickState.mk [] []).progress
              cfgA.addressHex) cfgA.startBlock + 1) 250 50).map Prod.snd) ∧
        ∀ v ∈ (chunks (max (getLastProcessedBlock (TickState.mk [] []).progress
            cfgA.addressHex) cfgA.startBlock + 1) 250 50).map Prod.snd,
          getLastProcessedBlock (TickState.mk [] []).progress cfgA.addressHex < v) :=
  ⟨by decide, rfl, by decide,
    c4_amended envOkEmpty cfgA 50 (TickState.mk [] []) 250 (by decide) rfl (by decide)⟩

theorem chunks_head_eq (f t m : Nat) (hft : f ≤ t) (hm : 1 ≤ m) :
    (chunks f t m).head? = some (f, min (f + m - 1) t) := by
  have hw : 1 ≤ t + 1 - f := by omega
  have hpos := ceilDiv_pos (t + 1 - f) m hw hm
  rw [chunks_closed f t m hm]
  rcases Nat.exists_eq_add_of_le hpos with ⟨k, hk⟩
  rw [hk, Nat.add_comm 1 k, List.range_succ_eq_map]
  simp [chunkAt]

/-- An environment at height 250 whose every log fetch fails. -/
def envFetchFail : Env :=
  { blockNumber := Except.ok 250
    filterLogs := fun _ => Except.error "connection refused"
    blockByNumber := fun _ => Except.ok 0
    insertFails := fun _ => false }

/-- C6: a failed chunk fetch aborts the current tick with the error
reported; the checkpoint stays strictly below the failing chunk (so
neither it nor any later chunk is recorded as processed); the monitor
loop keeps running on the tick event despite the error; and the next tick
at the same chain height re-derives the failing chunk as its first
chunk. -/
theorem c6_fetch_failure_aborts_tick (env : Env) (cfg : ContractConfig)
    (m : Nat) (s : TickState) (t : Nat) (pre : List (Nat × Nat))
    (c : Nat × Nat) (rest : List (Nat × Nat)) (e : String)
    (hm : 1 ≤ m) (hbn : env.blockNumber = Except.ok t)
    (hlt : max (getLastProcessedBlock s.progress cfg.addressHex) cfg.startBlock < t)
    (hsplit : chunks (max (getLastProcessedBlock s.progress cfg.addressHex)
        cfg.startBlock + 1) t m = pre ++ c :: rest)
    (hok : ∀ d ∈ pre, FetchOk env cfg d)
    (hfail : env.filterLogs (transferQuery cfg c.1 c.2) = Except.error e) :
    (processContractEvents env cfg m s).2 =
        some ("failed to process blocks: failed to filter logs: " ++ e) ∧
      getLastProcessedBlock (processContractEvents env cfg m s).1.progress
          cfg.addressHex < c.1 ∧
      monitorStep env cfg m s MonitorEvent.tick =
        some (processContractEvents env cfg m s).1 ∧
      (chunks (max (getLastProcessedBlock
            (processContractEvents env cfg m s).1.progress cfg.addressHex)
          cfg.startBlock + 1) t m).head? = some c := by
  set old := getLastProcessedBlock s.progress cfg.addressHex with hold
  set f := max old cfg.startBlock + 1 with hf
  have hft : f ≤ t := by omega
  have hcmem : c ∈ chunks f t m := by
    rw [hsplit]
    exact List.mem_append_right pre (List.mem_cons_self c rest)
  rcases chunks_elem_facts f t m hft hm c hcmem with ⟨hc1, hc2, hc3, _, hc5⟩
  have hrun := processContractEvents_run env cfg m s t hbn hlt
  rw [← hf] at hrun
  rcases runChunks_split env cfg pre s c rest e hok hfail with ⟨h1, h2⟩
  rw [hsplit] at hrun
  have hmon : monitorStep env cfg m s MonitorEvent.tick =
      some (processContractEvents env cfg m s).1 := rfl
  rw [hrun]
  refine ⟨h1, ?_⟩
  rcases List.eq_nil_or_concat' pre with hpre | ⟨pre2, lp, hpre⟩
  · subst hpre
    have hchk : (runChunks env cfg s ([] ++ c :: rest)).1.progress = s.progress := by
      rw [h2]
      rfl
    have hcf : c.1 = f := by
      have hh := chunks_head_eq f t m hft hm
      rw [hsplit] at hh
      simp only [List.nil_append, List.head?_cons, Option.some.injEq] at hh
      rw [hh]
    rw [hchk, ← hold]
    refine ⟨by omega, by rw [hmon, hrun], ?_⟩
    rw [← hf, hsplit]
    simp only [List.nil_append, List.head?_cons]
  · subst hpre
    have hchain := chunks_chain f t m hft hm
    rw [hsplit] at hchain
    rcases List.chain'_append.mp hchain with ⟨_, hchain2, hjunction⟩
    have hjunc : lp.2 + 1 = c.1 := by
      have h3 := hjunction lp (by rw [List.getLast?_concat]; rfl) c (by simp)
      exact h3
    have hchk : (runChunks env cfg s ((pre2 ++ [lp]) ++ c :: rest)).1.progress =
        (cfg.addressHex, lp.2) :: ((pre2.map (chunkWrite cfg)).reverse ++ s.progress) := by
      rw [h2, List.map_append, List.reverse_append]
      simp only [List.map_cons, List.map_nil, List.reverse_cons, List.reverse_nil,
        List.nil_append, List.singleton_append, List.cons_append]
      rfl
    rw [hchk, getLastProcessedBlock_cons]
    have hlpmem : lp ∈ chunks f t m := by
      rw [hsplit]
      exact List.mem_append_left _ (List.mem_append_right pre2 (List.mem_cons_self lp []))
    rcases chunks_elem_facts f t m hft hm lp hlpmem with ⟨hlp1, _, _, _, _⟩
    have hmax : max lp.2 cfg.startBlock = lp.2 := by
      apply Nat.max_eq_left
      omega
    refine ⟨by omega, by rw [hmon, hrun], ?_⟩
    rw [hmax]
    have hc1t : lp.2 + 1 ≤ t := by omega
    rw [hjunc]
    have hh := chunks_head_eq c.1 t m (by omega) hm
    rw [hh, Option.some.injEq]
    have hcpair : c = (c.1, c.2) := rfl
    rw [hcpair, hc5]

theorem c6_fetch_failure_aborts_tick_witness :
    (1 : Nat) ≤ 50 ∧ envFetchFail.blockNumber = Except.ok 250 ∧
      max (getLastProcessedBlock (TickState.mk [] []).progress cfgA.addressHex)
          cfgA.startBlock < 250 ∧
      chunks (max (getLastProcessedBlock (TickState.mk [] []).progress cfgA.addressHex)
          cfgA.startBlock + 1) 250 50 =
        [] ++ (101, 150) :: [(151, 200), (201, 250)] ∧
      (∀ d ∈ ([] : List (Nat × Nat)), FetchOk envFetchFail cfgA d) ∧
      envFetchFail.filterLogs (transferQuery cfgA 101 150) =
        Except.error "connection refused" ∧
      ((processContractEvents envFetchFail cfgA 50 (TickState.mk [] [])).2 =
          some ("failed to process blocks: failed to filter logs: " ++
            "connection refused") ∧
        getLastProcessedBlock
            (processContractEvents envFetchFail cfgA 50 (TickState.mk [] [])).1.progress
            cfgA.addressHex < 101 ∧
        monitorStep envFetchFail cfgA 50 (TickState.mk [] []) MonitorEvent.tick =
          some (processContractEvents envFetchFail cfgA 50 (TickState.mk [] [])).1 ∧
        (chunks (max (getLastProcessedBlock
              (processContractEvents envFetchFail cfgA 50 (TickState.mk [] [])).1.progress
              cfgA.addressHex) cfgA.startBlock + 1) 250 50).head? =
          some (101, 150)) :=
  ⟨by decide, rfl, by decide, by decide, fun d hd => absurd hd (List.not_mem_nil d), rfl,
    c6_fetch_failure_aborts_tick envFetchFail cfgA 50 (TickState.mk [] []) 250 []
      (101, 150) [(151, 200), (201, 250)] "connection refused" (by decide) rfl
      (by decide) (by decide) (fun d hd => absurd hd (List.not_mem_nil d)) rfl⟩

/-- A log with too few topics (2) and an empty data payload. -/
def logBad : Log :=
  { address := "0xabc"
    topics := [transferSig, padTopic 1]
    data := []
    txHash := "0xt2"
    blockNumber := 105
    index := 1 }

/-- C7: a log with fewer than 3 topics or fewer than 32 data bytes is a
decode failure: processTransferEvent returns an error and stores nothing,
and the per-chunk loop skips exactly that log, continuing with the
remaining logs of the chunk against an unchanged store. -/
theorem c7_decode_robustness (env : Env) (cfg : ContractConfig)
    (db : List Transaction) (l : Log)
    (hbad : l.topics.length < 3 ∨ l.data.length < 32) :
    processTransferEvent env cfg db l = Except.error "invalid transfer event data" ∧
      ∀ rest, processLogs env cfg db (l :: rest) = processLogs env cfg db rest := by
  have h := processTransferEvent_malformed env cfg db l hbad
  exact ⟨h, fun rest => processLogs_skip env cfg db l rest _ h⟩

theorem c7_decode_robustness_witness :
    (logBad.topics.length < 3 ∨ logBad.data.length < 32) ∧
      (processTransferEvent envDup cfgA [] logBad =
          Except.error "invalid transfer event data" ∧
        ∀ rest, processLogs envDup cfgA [] (logBad :: rest) =
          processLogs envDup cfgA [] rest) :=
  ⟨by decide, c7_decode_robustness envDup cfgA [] logBad (by decide)⟩

/-- C8: for a log accepted by the decoder (3 or more topics, 32 or more
data bytes, 32-byte address topics), the produced record's sender and
recipient are the low 20 bytes of topics[1] and topics[2], its amount is
the decimal representation of the big-endian unsigned integer formed from
the first 32 data bytes, and processTransferEvent persists exactly this
record once the block timestamp resolves. -/
theorem c8_decode_fields (cfg : ContractConfig) (l : Log) (ts : Nat)
    (h3 : 3 ≤ l.topics.length) (h32 : 32 ≤ l.data.length)
    (ht1 : (l.topics.getD 1 []).length = 32)
    (ht2 : (l.topics.getD 2 []).length = 32) :
    (mkTransferTx cfg l ts).fromAddress = (l.topics.getD 1 []).drop 12 ∧
      (mkTransferTx cfg l ts).toAddress = (l.topics.getD 2 []).drop 12 ∧
      (mkTransferTx cfg l ts).amount = Nat.repr (leNat (l.data.take 32).reverse) ∧
      ∀ (env : Env) (db : List Transaction),
        env.blockByNumber l.blockNumber = Except.ok ts →
        processTransferEvent env cfg db l = dbCreate env db (mkTransferTx cfg l ts) := by
  refine ⟨?_, ?_, ?_, ?_⟩
  · show bytesToAddress (l.topics.getD 1 []) = (l.topics.getD 1 []).drop 12
    unfold bytesToAddress
    rw [ht1, if_pos (by omega)]
  · show bytesToAddress (l.topics.getD 2 []) = (l.topics.getD 2 []).drop 12
    unfold bytesToAddress
    rw [ht2, if_pos (by omega)]
  · show Nat.repr (beNat (l.data.take 32)) = Nat.repr (leNat (l.data.take 32).reverse)
    rw [leNat_reverse_eq_beNat]
  · intro env db hbn
    unfold processTransferEvent
    rw [if_neg (by omega), hbn]

theorem c8_decode_fields_witness :
    (3 ≤ logGood.topics.length ∧ 32 ≤ logGood.data.length ∧
        (logGood.topics.getD 1 []).length = 32 ∧
        (logGood.topics.getD 2 []).length = 32) ∧
      ((mkTransferTx cfgA logGood 1700000000).fromAddress =
          (logGood.topics.getD 1 []).drop 12 ∧
        (mkTransferTx cfgA logGood 1700000000).toAddress =
          (logGood.topics.getD 2 []).drop 12 ∧
        (mkTransferTx cfgA logGood 1700000000).amount =
          Nat.repr (leNat (logGood.data.take 32).reverse) ∧
        ∀ (env : Env) (db : List Transaction),
          env.blockByNumber logGood.blockNumber = Except.ok 1700000000 →
          processTransferEvent env cfgA db logGood =
            dbCreate env db (mkTransferTx cfgA logGood 1700000000)) :=
  ⟨⟨by decide, by decide, by decide, by decide⟩,
    c8_decode_fields cfgA logGood 1700000000 (by decide) (by decide) (by decide)
      (by decide)⟩

/-- A log with a first topic different from the Transfer signature but
otherwise well formed. -/
def logWrongSig : Log :=
  { address := "0xabc"
    topics := [padTopic 9, padTopic 1, padTopic 2]
    data := List.replicate 31 0 ++ [7]
    txHash := "0xt3"
    blockNumber := 106
    index := 0 }

/-- C9 (counterexample): the decoder performs no first-topic check: a log
whose first topic differs from the Transfer signature hash but has 3
topics and 32 data bytes is decoded successfully and its record is
persisted, contradicting the claim that decoding fails for every such
log. -/
theorem c9_counterexample :
    logWrongSig.topics.getD 0 [] ≠ transferSig ∧
      processTransferEvent envDup cfgA [] logWrongSig =
        Except.ok [mkTransferTx cfgA logWrongSig 1700000000] := by
  refine ⟨by decide, by rfl⟩

theorem logMatches_transferSig (cfg : ContractConfig) (a b : Nat) (l : Log)
    (h : logMatches (transferQuery cfg a b) l = true) :
    l.topics.getD 0 [] = transferSig := by
  unfold logMatches transferQuery at h
  simp only [Bool.and_eq_true] at h
  rcases h with ⟨_, htm⟩
  cases hl : l.topics with
  | nil =>
    rw [hl] at htm
    exact absurd htm (by decide)
  | cons t0 ts =>
    rw [hl] at htm
    have htm2 : (List.isEmpty [transferSig] || List.contains [transferSig] t0) = true := by
      have h2 : topicsMatch [[transferSig]] (t0 :: ts) =
          ((List.isEmpty [transferSig] || List.contains [transferSig] t0) &&
            topicsMatch [] ts) := rfl
      rw [h2, Bool.and_eq_true] at htm
      exact htm.1
    show t0 = transferSig
    simp only [List.isEmpty, Bool.false_or, List.contains] at htm2
    have h3 : t0 ∈ [transferSig] := List.elem_iff.mp htm2
    simpa using h3

/-- C9 (amended): the first-topic restriction lives in the fetch query,
not in the decoder: processBlockRange asks the Chain Reader only for logs
whose first topic is the Transfer signature, so with an honest reader
every record a chunk adds to the store comes from a fetched log whose
first topic equals the signature hash; the decoder itself accepts any
3-topic, 32-data-byte log regardless of its first topic. -/
theorem c9_amended (env : Env) (cfg : ContractConfig) (db : List Transaction)
    (a b : Nat) (db2 : List Transaction) (hh : HonestReader env)
    (hok : processBlockRange env cfg db a b = Except.ok db2) :
    ∀ tx ∈ db2, tx ∈ db ∨
      ∃ logs l ts, env.filterLogs (transferQuery cfg a b) = Except.ok logs ∧
        l ∈ logs ∧ l.topics.getD 0 [] = transferSig ∧
        env.blockByNumber l.blockNumber = Except.ok ts ∧
        tx = mkTransferTx cfg l ts := by
  intro tx htx
  rcases processBlockRange_ok_inv env cfg db a b db2 hok with ⟨logs, hlogs, hdb2⟩
  rw [hdb2] at htx
  rcases processLogs_provenance env cfg logs db tx htx with h | ⟨l, hl, ts, hts, heq⟩
  · exact Or.inl h
  · refine Or.inr ⟨logs, l, ts, hlogs, hl, ?_, hts, heq⟩
    exact logMatches_transferSig cfg a b l (hh _ _ hlogs l hl)

theorem c9_amended_witness :
    HonestReader envOkEmpty ∧
      processBlockRange envOkEmpty cfgA [] 101 150 = Except.ok [] ∧
      ∀ tx ∈ ([] : List Transaction), tx ∈ ([] : List Transaction) ∨
        ∃ logs l ts,
          envOkEmpty.filterLogs (transferQuery cfgA 101 150) = Except.ok logs ∧
          l ∈ logs ∧ l.topics.getD 0 [] = transferSig ∧
          envOkEmpty.blockByNumber l.blockNumber = Except.ok ts ∧
          tx = mkTransferTx cfgA l ts := by
  have hh : HonestReader envOkEmpty := by
    intro q logs h l hl
    have h3 : Except.ok ([] : List Log) = Except.ok logs := h
    have h4 : ([] : List Log) = logs := by injection h3
    rw [← h4] at hl
    exact absurd hl (List.not_mem_nil l)
  exact ⟨hh, rfl, c9_amended envOkEmpty cfgA [] 101 150 [] hh rfl⟩

end CoinIndexer

